import Mathlib

/-!
# Verification of the `Ln` internationalization class

Shallow embedding of `src/source/index.ts` (class `Ln`): the locale store,
the loader for `.lang` file contents, and the resolver `t` in its local and
online forms.  JavaScript strings are modelled as lists of characters, and
the JavaScript `Map` objects as association lists.  The translation client
(`translate` from `@vitalets/google-translate-api`) is an oracle parameter
`Str → Str → Option Str`; `none` models a thrown error.  Logging is not
modelled (it does not affect the returned values or the store).
-/

/-- JavaScript strings, modelled as lists of characters. -/
abbrev Str := List Char

/-- Embed a Lean string literal as a `Str`. -/
def toStr (s : String) : Str := s.data

/-- Whitespace test used by `String.prototype.trim`. -/
def ws (c : Char) : Bool := c.isWhitespace

/-- `String.prototype.trim`: drop leading and trailing whitespace. -/
def trim (l : Str) : Str := (((l.dropWhile ws).reverse).dropWhile ws).reverse

/-- `content.split("\n")`: split a string at newline characters.
JavaScript yields `[""]` on the empty string. -/
def splitNl : Str → List Str
  | [] => [[]]
  | c :: rest =>
    if c = '\n' then [] :: splitNl rest
    else
      match splitNl rest with
      | l :: ls => (c :: l) :: ls
      | [] => [[c]]

/-- Split a line at its first `=`: the match groups of `/^([^=]+)=(.*)$/`
(before any emptiness checks).  `none` when the line has no `=`. -/
def splitEq : Str → Option (Str × Str)
  | [] => none
  | c :: rest =>
    if c = '=' then some ([], rest)
    else (splitEq rest).map (fun p => (c :: p.1, p.2))

/-- The entry a single (already trimmed) line contributes in `Ln.load`
(lines 89-101 of `src/source/index.ts`): the line must match
`/^([^=]+)=(.*)$/` with both groups non-empty (`!match[1] || !match[2]`),
and key and value are trimmed before storing. -/
def lineEntry (l : Str) : Option (Str × Str) :=
  match splitEq l with
  | some ba => if ba.1 ≠ [] ∧ ba.2 ≠ [] then some (trim ba.1, trim ba.2) else none
  | none => none

/-- Line preprocessing of `Ln.load` (line 68 of `src/source/index.ts`):
split the file content at newlines, trim each line, and drop blank lines
and lines starting with `#`. -/
def linesOf (content : Str) : List Str :=
  ((splitNl content).map trim).filter (fun l => decide (l ≠ [] ∧ l.head? ≠ some '#'))

/-- A per-language map: lookup key to resolved string (inner `Map`). -/
abbrev LocMap := List (Str × Str)

/-- The locale store: language code to `LocMap` (outer `Map`). -/
abbrev LnStore := List (Str × LocMap)

/-- `Map.prototype.get` on an association list. -/
def alget {β : Type} : List (Str × β) → Str → Option β
  | [], _ => none
  | (k, v) :: rest, key => if k = key then some v else alget rest key

/-- `Map.prototype.set` on an association list. -/
def alset {β : Type} : List (Str × β) → Str → β → List (Str × β)
  | [], key, val => [(key, val)]
  | (k, v) :: rest, key, val =>
    if k = key then (key, val) :: rest else (k, v) :: alset rest key val

/-- `this.locales.get(language)?.get(key)`. -/
def lookupStore (st : LnStore) (lang key : Str) : Option Str :=
  match alget st lang with
  | some m => alget m key
  | none => none

/-- `if (!this.locales.has(language)) this.locales.set(language, new Map())`. -/
def ensureLang (st : LnStore) (lang : Str) : LnStore :=
  match alget st lang with
  | some _ => st
  | none => alset st lang []

/-- `this.locales.get(language).set(key, value)` (language map created first
when absent). -/
def setEntry (st : LnStore) (lang key v : Str) : LnStore :=
  match alget st lang with
  | some m => alset st lang (alset m key v)
  | none => alset st lang (alset [] key v)

/-- `Ln.reset` (lines 217-220): `this.locales.clear()`. -/
def resetStore (_st : LnStore) : LnStore := []

/-- The per-line loop of `Ln.load` (lines 81-102): fold the lines into the
language's map, skipping lines without a valid `key=value`. -/
def processLines (m : LocMap) : List Str → LocMap
  | [] => m
  | l :: rest =>
    match lineEntry l with
    | some kv => processLines (alset m kv.1 kv.2) rest
    | none => processLines m rest

/-- Processing of one file's content for one language in `Ln.load`
(lines 57-108 of `src/source/index.ts`): preprocess the lines; when none
remain the file is skipped before the language map is created; otherwise
the language map is created if absent and the lines are folded in.
The directory traversal, `fs` calls and logging around this are I/O glue
and are not modelled. -/
def loadFile (st : LnStore) (lang content : Str) : LnStore :=
  let lines := linesOf content
  if lines = [] then st
  else
    let base := match alget st lang with | some m => m | none => []
    alset st lang (processLines base lines)

/-- Is `pat` an initial segment of `s`?  (`String.prototype.startsWith`,
used to locate the first match of `String.prototype.replace`.) -/
def isPre : Str → Str → Bool
  | [], _ => true
  | _ :: _, [] => false
  | a :: as, b :: bs => if a = b then isPre as bs else false

/-- Does `pat` occur as a contiguous substring of `s`?
(`String.prototype.includes`.) -/
def occursIn : Str → Str → Bool
  | pat, [] => isPre pat []
  | pat, s@(_ :: rest) => isPre pat s || occursIn pat rest

/-- `s.replace(pat, repl)` with a string pattern: replace the first
occurrence of `pat` in `s`, or return `s` unchanged when `pat` does not
occur.  An empty pattern matches at the start, as in JavaScript. -/
def replaceFirst : Str → Str → Str → Str
  | [], pat, repl => if isPre pat [] then repl else []
  | s@(c :: rest), pat, repl =>
    if isPre pat s then repl ++ s.drop pat.length
    else c :: replaceFirst rest pat repl

/-- The literal placeholder `%name%` (line 169 / 205). -/
def placeholderOf (name : Str) : Str := '%' :: (name ++ ['%'])

/-- Opening brace character, `{`. -/
def lbrace : Char := Char.ofNat 123

/-- Closing brace character, `}`. -/
def rbrace : Char := Char.ofNat 125

/-- The temporary marker for the placeholder at index `i` (line 170). -/
def tempMarker (i : Nat) : Str :=
  [lbrace, lbrace, 'P', 'H', '_'] ++ Nat.toDigits 10 i ++ [rbrace, rbrace]

/-- The placeholder-protection loop of `Ln.t` (lines 167-174): for each
variable name, in order and with its index, replace the first occurrence of
`%name%` in the text by its temporary marker, recording the pair.  Returns
the protected text and the `placeholders` record (marker, placeholder). -/
def protectAux : List (Str × Str) → Nat → Str → Str × List (Str × Str)
  | [], _, t => (t, [])
  | (k, _) :: rest, i, t =>
    let ph := placeholderOf k
    let temp := tempMarker i
    let p := protectAux rest (i + 1) (replaceFirst t ph temp)
    (p.1, (temp, ph) :: p.2)

/-- Variable maps `vars : Record<string, string>` in insertion order. -/
abbrev VarList := List (Str × Str)

/-- Protect the placeholders of `vars` in `text` (lines 166-174). -/
def protect (vars : VarList) (text : Str) : Str × List (Str × Str) :=
  protectAux vars 0 text

/-- The placeholder-restoration loop (lines 179-181 / 192-194): replace the
first occurrence of each temporary marker by its original placeholder. -/
def restoreAll (phs : List (Str × Str)) (t : Str) : Str :=
  phs.foldl (fun acc p => replaceFirst acc p.1 p.2) t

/-- The variable-substitution loop of `Ln.t` (lines 203-207): for each
entry of `vars`, in order, replace the first occurrence of `%name%` by its
value. -/
def substVars (vars : VarList) (t : Str) : Str :=
  vars.foldl (fun acc p => replaceFirst acc (placeholderOf p.1) p.2) t

/-- `args[2] || this.default` (line 128 / 144): the effective language of a
call to `Ln.t`, defaulting when the argument is missing or empty. -/
def effLang (language deflt : Str) : Str :=
  if language = [] then deflt else language

/-- Result of one call to `Ln.t` in online mode: the returned string, the
store afterwards, and the invocations of the translation client, each as
(text sent, target language). -/
structure TRes where
  out : Str
  store : LnStore
  calls : List (Str × Str)
deriving DecidableEq

/-- `Ln.t` in online mode (lines 118-215 of `src/source/index.ts` with
`this.online` true).  `oracle` is the translation client; `none` models a
thrown error.  Steps, in source order: argument guard (lines 130-133),
language-map creation and pre-store of the original text when the key is
absent (lines 134-141), repeated language-map creation (156-158), cache
lookup (161), translation branch with placeholder protection, client call,
restoration and store update, falling back to the original text on client
error (163-195), fallback (196-199), and variable substitution (201-207). -/
def tOnline (st : LnStore) (textToTranslate key language : Str) (vars : VarList)
    (oracle : Str → Str → Option Str) (deflt : Str) : TRes :=
  let lang := effLang language deflt
  if textToTranslate = [] ∨ key = [] then
    ⟨if textToTranslate = [] then key else textToTranslate, st, []⟩
  else
    let st1 := ensureLang st lang
    let st2 := if (lookupStore st1 lang key).isSome then st1
               else setEntry st1 lang key textToTranslate
    match lookupStore st2 lang key with
    | some text =>
      if text = [] then
        let p := protect vars textToTranslate
        match oracle p.1 lang with
        | some res =>
          let text2 := restoreAll p.2 res
          ⟨substVars vars text2, setEntry st2 lang key text2, [(p.1, lang)]⟩
        | none =>
          let text2 := restoreAll p.2 textToTranslate
          ⟨substVars vars text2, st2, [(p.1, lang)]⟩
      else ⟨substVars vars text, st2, []⟩
    | none =>
      ⟨substVars vars (if textToTranslate = [] then key else textToTranslate), st2, []⟩

/-- `Ln.t` in local mode (lines 142-214 with `this.online` false): default
the language, create the language map when absent, look the key up, fall
back to the key itself on a miss or falsy hit, and substitute variables.
Returns the string and the store afterwards. -/
def tLocal (st : LnStore) (key language : Str) (vars : VarList) (deflt : Str) :
    Str × LnStore :=
  let lang := effLang language deflt
  let st1 := ensureLang st lang
  match lookupStore st1 lang key with
  | some text =>
    if text = [] then (substVars vars key, st1) else (substVars vars text, st1)
  | none => (substVars vars key, st1)

/-- Stores reachable from a fresh `Ln` instance through its public
operations `load`, `t` (both modes) and `reset`. -/
inductive Reachable : LnStore → Prop where
  | init : Reachable []
  | load : ∀ st lang content, Reachable st → Reachable (loadFile st lang content)
  | tloc : ∀ st key language vars deflt, Reachable st →
      Reachable (tLocal st key language vars deflt).2
  | tonl : ∀ st text key language vars oracle deflt, Reachable st →
      Reachable (tOnline st text key language vars oracle deflt).store
  | reset : ∀ st, Reachable st → Reachable (resetStore st)

/-- Every value of a language map is a non-empty string. -/
def GoodMap (m : LocMap) : Prop :=
  ∀ k v, alget m k = some v → v ≠ []

/-- Every value stored in any language map is a non-empty string. -/
def GoodStore (st : LnStore) : Prop :=
  ∀ lang m, alget st lang = some m → GoodMap m

/-! ## Association-list lemmas -/

theorem alget_alset {β : Type} (m : List (Str × β)) (k k' : Str) (v : β) :
    alget (alset m k v) k' = if k' = k then some v else alget m k' := by
  induction m with
  | nil =>
    by_cases h : k' = k
    · subst h; simp [alset, alget]
    · have h2 : ¬ k = k' := fun hh => h hh.symm
      simp [alset, alget, h, h2]
  | cons p rest ih =>
    obtain ⟨pk, pv⟩ := p
    simp only [alset]
    by_cases hpk : pk = k
    · subst hpk
      by_cases h : k' = pk
      · subst h; simp [alget]
      · have h2 : ¬ pk = k' := fun hh => h hh.symm
        simp [alget, h, h2]
    · simp only [if_neg hpk, alget]
      by_cases h : pk = k'
      · subst h
        have h2 : ¬ pk = k := hpk
        simp [h2]
      · simp [h, ih]

theorem lookup_some_alget {st : LnStore} {l k : Str} {v : Str}
    (h : lookupStore st l k = some v) : ∃ m, alget st l = some m ∧ alget m k = some v := by
  unfold lookupStore at h
  cases hm : alget st l with
  | none => rw [hm] at h; exact absurd h (by simp)
  | some m => rw [hm] at h; exact ⟨m, rfl, h⟩

theorem ensure_of_some {st : LnStore} {l : Str} {m : LocMap}
    (h : alget st l = some m) : ensureLang st l = st := by
  unfold ensureLang; rw [h]

theorem lookup_ensure (st : LnStore) (l k : Str) :
    lookupStore (ensureLang st l) l k = lookupStore st l k := by
  unfold ensureLang
  cases hm : alget st l with
  | some m => rfl
  | none =>
    unfold lookupStore
    rw [hm, alget_alset]
    simp [alget]

theorem lookup_setEntry_same (st : LnStore) (l k : Str) (v : Str) :
    lookupStore (setEntry st l k v) l k = some v := by
  unfold setEntry lookupStore
  cases hm : alget st l with
  | some m => rw [alget_alset]; simp [alget_alset]
  | none => rw [alget_alset]; simp [alget_alset]

/-! ## dropWhile and trim lemmas -/

theorem head_dropWhile_not {p : Char → Bool} {xs : Str} {c : Char}
    (h : (xs.dropWhile p).head? = some c) : p c = false := by
  induction xs with
  | nil => simp [List.dropWhile] at h
  | cons x rest ih =>
    by_cases hp : p x
    · rw [List.dropWhile_cons_of_pos hp] at h; exact ih h
    · rw [List.dropWhile_cons_of_neg hp] at h
      simp at h
      rw [← h]
      exact Bool.eq_false_iff.mpr hp

theorem dropWhile_decomp (p : Char → Bool) (xs : Str) :
    ∃ t, xs = t ++ xs.dropWhile p := by
  induction xs with
  | nil => exact ⟨[], rfl⟩
  | cons x rest ih =>
    by_cases hp : p x
    · rw [List.dropWhile_cons_of_pos hp]
      obtain ⟨t, ht⟩ := ih
      exact ⟨x :: t, by rw [List.cons_append, ← ht]⟩
    · rw [List.dropWhile_cons_of_neg hp]
      exact ⟨[], rfl⟩

theorem all_of_dropWhile_nil {p : Char → Bool} {xs : Str}
    (h : xs.dropWhile p = []) : ∀ c ∈ xs, p c = true := by
  induction xs with
  | nil => intro c hc; exact absurd hc (by simp)
  | cons x rest ih =>
    by_cases hp : p x
    · rw [List.dropWhile_cons_of_pos hp] at h
      intro c hc
      rcases List.mem_cons.mp hc with h1 | h2
      · rw [h1]; exact hp
      · exact ih h c h2
    · rw [List.dropWhile_cons_of_neg hp] at h
      exact absurd h (by simp)

theorem mem_dropWhile_of_not {p : Char → Bool} {xs : Str} {c : Char}
    (hc : c ∈ xs) (hp : p c = false) : c ∈ xs.dropWhile p := by
  induction xs with
  | nil => exact absurd hc (by simp)
  | cons x rest ih =>
    by_cases hx : p x
    · rw [List.dropWhile_cons_of_pos hx]
      rcases List.mem_cons.mp hc with h1 | h2
      · subst h1; rw [hx] at hp; exact absurd hp (by simp)
      · exact ih h2
    · rw [List.dropWhile_cons_of_neg hx]; exact hc

theorem dropWhile_of_head_not {p : Char → Bool} {xs : Str}
    (h : ∀ c, xs.head? = some c → p c = false) : xs.dropWhile p = xs := by
  cases xs with
  | nil => rfl
  | cons x rest =>
    have := h x rfl
    rw [List.dropWhile_cons_of_neg (by simp [this])]

theorem trim_head_not_ws {l : Str} {c : Char}
    (h : (trim l).head? = some c) : ws c = false := by
  obtain ⟨t, ht⟩ := dropWhile_decomp ws ((l.dropWhile ws).reverse)
  have hu : l.dropWhile ws = trim l ++ t.reverse := by
    unfold trim
    have h2 := congrArg List.reverse ht
    rwa [List.reverse_append, List.reverse_reverse] at h2
  have hh : (l.dropWhile ws).head? = some c := by
    cases htl : trim l with
    | nil => rw [htl] at h; exact absurd h (by simp)
    | cons c' w =>
      rw [htl] at h
      rw [hu, htl]
      simpa using h
  exact head_dropWhile_not hh

theorem trim_last_not_ws {l : Str} {c : Char}
    (h : (trim l).reverse.head? = some c) : ws c = false := by
  unfold trim at h
  rw [List.reverse_reverse] at h
  exact head_dropWhile_not h

theorem trim_all_ws {l : Str} (h : trim l = []) : ∀ c ∈ l, ws c = true := by
  unfold trim at h
  have hd : ((l.dropWhile ws).reverse).dropWhile ws = [] := by
    have := congrArg List.reverse h
    rwa [List.reverse_reverse, List.reverse_nil] at this
  have hall : ∀ c ∈ (l.dropWhile ws).reverse, ws c = true := all_of_dropWhile_nil hd
  intro c hc
  by_cases hw : ws c
  · exact hw
  · have hmem : c ∈ l.dropWhile ws :=
      mem_dropWhile_of_not hc (Bool.eq_false_iff.mpr hw)
    have := hall c (List.mem_reverse.mpr hmem)
    exact this

theorem trim_trim (l : Str) : trim (trim l) = trim l := by
  have h1 : (trim l).dropWhile ws = trim l := by
    apply dropWhile_of_head_not
    intro c hc
    exact trim_head_not_ws hc
  have h2 : ((trim l).reverse).dropWhile ws = (trim l).reverse := by
    apply dropWhile_of_head_not
    intro c hc
    exact trim_last_not_ws hc
  show (((trim l).dropWhile ws).reverse.dropWhile ws).reverse = trim l
  rw [h1, h2, List.reverse_reverse]

/-! ## splitEq, lineEntry and linesOf lemmas -/

theorem splitEq_eq {l b a : Str} (h : splitEq l = some (b, a)) :
    l = b ++ '=' :: a := by
  induction l generalizing b a with
  | nil => exact absurd h (by simp [splitEq])
  | cons c rest ih =>
    by_cases hc : c = '='
    · subst hc
      have h2 : (([] : Str), rest) = (b, a) := by
        have h3 : some (([] : Str), rest) = some (b, a) := by
          simpa [splitEq] using h
        exact Option.some_inj.mp h3
      injection h2 with hb ha
      subst hb; subst ha; rfl
    · cases hr : splitEq rest with
      | none => simp [splitEq, hc, hr] at h
      | some p =>
        obtain ⟨b', a'⟩ := p
        have h2 : (c :: b', a') = (b, a) := by
          have h3 : splitEq (c :: rest) = some (c :: b', a') := by
            simp [splitEq, hc, hr]
          rw [h3] at h
          exact Option.some_inj.mp h
        injection h2 with hb ha
        subst hb; subst ha
        rw [List.cons_append]
        congr 1
        exact ih hr

theorem value_trim_ne_nil {l b a : Str} (hfix : trim l = l)
    (h : splitEq l = some (b, a)) (ha : a ≠ []) : trim a ≠ [] := by
  intro hta
  have hall : ∀ c ∈ a, ws c = true := trim_all_ws hta
  cases har : a.reverse with
  | nil => exact ha (by simpa using congrArg List.reverse har)
  | cons c w =>
    have hl : l = b ++ '=' :: a := splitEq_eq h
    have hlr : l.reverse.head? = some c := by
      rw [hl, List.reverse_append, List.reverse_cons, har]
      rfl
    have hlr2 : (trim l).reverse.head? = some c := by rw [hfix]; exact hlr
    have hc_not : ws c = false := trim_last_not_ws hlr2
    have hc_mem : c ∈ a := List.mem_reverse.mp (har ▸ List.mem_cons_self c w)
    rw [hall c hc_mem] at hc_not
    exact absurd hc_not (by simp)

theorem key_trim_ne_nil {l b a : Str} (hfix : trim l = l)
    (h : splitEq l = some (b, a)) (hb : b ≠ []) : trim b ≠ [] := by
  intro htb
  have hall : ∀ c ∈ b, ws c = true := trim_all_ws htb
  cases b with
  | nil => exact hb rfl
  | cons d b' =>
    have hl : l = (d :: b') ++ '=' :: a := splitEq_eq h
    have hld : l.head? = some d := by rw [hl]; rfl
    have hld2 : (trim l).head? = some d := by rw [hfix]; exact hld
    have hd_not : ws d = false := trim_head_not_ws hld2
    rw [hall d (List.mem_cons_self d b')] at hd_not
    exact absurd hd_not (by simp)

theorem lineEntry_some {l k v : Str} (h : lineEntry l = some (k, v)) :
    ∃ b a, splitEq l = some (b, a) ∧ b ≠ [] ∧ a ≠ [] ∧ k = trim b ∧ v = trim a := by
  cases hs : splitEq l with
  | none => unfold lineEntry at h; rw [hs] at h; exact absurd h (by simp)
  | some ba =>
    obtain ⟨b, a⟩ := ba
    have h2 : (if b ≠ [] ∧ a ≠ [] then some (trim b, trim a) else none) = some (k, v) := by
      unfold lineEntry at h
      rw [hs] at h
      exact h
    by_cases hba : b ≠ [] ∧ a ≠ []
    · rw [if_pos hba] at h2
      have h3 : (trim b, trim a) = (k, v) := Option.some_inj.mp h2
      injection h3 with hk hv
      exact ⟨b, a, rfl, hba.1, hba.2, hk.symm, hv.symm⟩
    · rw [if_neg hba] at h2
      exact absurd h2 (by simp)

theorem lineEntry_value_ne_nil {l k v : Str} (hfix : trim l = l)
    (h : lineEntry l = some (k, v)) : v ≠ [] := by
  obtain ⟨b, a, hs, _, ha, _, hv⟩ := lineEntry_some h
  rw [hv]
  exact value_trim_ne_nil hfix hs ha

theorem mem_linesOf_trim_fix {content l : Str} (h : l ∈ linesOf content) :
    trim l = l := by
  unfold linesOf at h
  have h2 := List.mem_of_mem_filter h
  obtain ⟨raw, _, hraw⟩ := List.mem_map.mp h2
  rw [← hraw]
  exact trim_trim raw

theorem mem_linesOf_props {content l : Str} (h : l ∈ linesOf content) :
    l ≠ [] ∧ l.head? ≠ some '#' := by
  unfold linesOf at h
  have h2 := List.of_mem_filter h
  exact of_decide_eq_true h2

theorem mem_linesOf_of {content raw : Str} (hraw : raw ∈ splitNl content)
    (h1 : trim raw ≠ []) (h2 : (trim raw).head? ≠ some '#') :
    trim raw ∈ linesOf content := by
  unfold linesOf
  apply List.mem_filter.mpr
  constructor
  · exact List.mem_map.mpr ⟨raw, hraw, rfl⟩
  · exact decide_eq_true ⟨h1, h2⟩

/-! ## processLines and loadFile lemmas -/

theorem processLines_no_touch {ls : List Str} {m : LocMap} {k : Str}
    (h : ∀ l ∈ ls, ∀ v', lineEntry l = some (k, v') → False) :
    alget (processLines m ls) k = alget m k := by
  induction ls generalizing m with
  | nil => rfl
  | cons l rest ih =>
    cases he : lineEntry l with
    | some kv =>
      obtain ⟨k', v'⟩ := kv
      have hk' : k' ≠ k := by
        intro hkk
        subst hkk
        exact h l (List.mem_cons_self l rest) v' he
      simp only [processLines, he]
      rw [ih (fun l' hl' v'' he'' => h l' (List.mem_cons_of_mem l hl') v'' he'')]
      rw [alget_alset]
      exact if_neg (fun hkk => hk' hkk.symm)
    | none =>
      simp only [processLines, he]
      exact ih (fun l' hl' v'' he'' => h l' (List.mem_cons_of_mem l hl') v'' he'')

theorem processLines_last {ls : List Str} {m : LocMap} {k v : Str}
    (hall : ∀ l ∈ ls, ∀ v', lineEntry l = some (k, v') → v' = v)
    (hex : ∃ l ∈ ls, lineEntry l = some (k, v)) :
    alget (processLines m ls) k = some v := by
  induction ls generalizing m with
  | nil => obtain ⟨l, hl, _⟩ := hex; exact absurd hl (by simp)
  | cons l rest ih =>
    have hall' : ∀ l' ∈ rest, ∀ v', lineEntry l' = some (k, v') → v' = v :=
      fun l' hl' v' he' => hall l' (List.mem_cons_of_mem l hl') v' he'
    cases he : lineEntry l with
    | some kv =>
      obtain ⟨k', v'⟩ := kv
      simp only [processLines, he]
      by_cases hk : k' = k
      · subst hk
        have hv' : v' = v := hall l (List.mem_cons_self l rest) v' he
        subst hv'
        by_cases hrest : ∃ l' ∈ rest, lineEntry l' = some (k', v')
        · exact ih hall' hrest
        · rw [processLines_no_touch]
          · rw [alget_alset]; simp
          · intro l' hl' v'' he''
            have := hall' l' hl' v'' he''
            subst this
            exact hrest ⟨l', hl', he''⟩
      · apply ih hall'
        obtain ⟨l', hl', he'⟩ := hex
        rcases List.mem_cons.mp hl' with h1 | h2
        · subst h1; rw [he'] at he
          have h3 : (k, v) = (k', v') := Option.some_inj.mp he
          injection h3 with hk' _
          exact absurd hk'.symm hk
        · exact ⟨l', h2, he'⟩
    | none =>
      simp only [processLines, he]
      apply ih hall'
      obtain ⟨l', hl', he'⟩ := hex
      rcases List.mem_cons.mp hl' with h1 | h2
      · subst h1; rw [he'] at he; exact absurd he (by simp)
      · exact ⟨l', h2, he'⟩

theorem processLines_provenance {ls : List Str} {m : LocMap} {k v : Str}
    (h : alget (processLines m ls) k = some v) :
    alget m k = some v ∨ ∃ l ∈ ls, lineEntry l = some (k, v) := by
  induction ls generalizing m with
  | nil => exact Or.inl h
  | cons l rest ih =>
    cases he : lineEntry l with
    | some kv =>
      obtain ⟨k', v'⟩ := kv
      simp only [processLines, he] at h
      rcases ih h with h1 | h2
      · rw [alget_alset] at h1
        by_cases hk : k = k'
        · subst hk
          rw [if_pos rfl] at h1
          have hv : v' = v := Option.some_inj.mp h1
          subst hv
          exact Or.inr ⟨l, List.mem_cons_self l rest, he⟩
        · rw [if_neg hk] at h1
          exact Or.inl h1
      · obtain ⟨l', hl', he'⟩ := h2
        exact Or.inr ⟨l', List.mem_cons_of_mem l hl', he'⟩
    | none =>
      simp only [processLines, he] at h
      rcases ih h with h1 | h2
      · exact Or.inl h1
      · obtain ⟨l', hl', he'⟩ := h2
        exact Or.inr ⟨l', List.mem_cons_of_mem l hl', he'⟩

theorem loadFile_provenance {st : LnStore} {lang content k v : Str}
    (h : lookupStore (loadFile st lang content) lang k = some v) :
    lookupStore st lang k = some v ∨ ∃ l ∈ linesOf content, lineEntry l = some (k, v) := by
  unfold loadFile at h
  by_cases hl : linesOf content = []
  · rw [if_pos hl] at h; exact Or.inl h
  · rw [if_neg hl] at h
    unfold lookupStore at h
    rw [alget_alset, if_pos rfl] at h
    rcases processLines_provenance h with h1 | h2
    · cases hm : alget st lang with
      | some m =>
        rw [hm] at h1
        unfold lookupStore
        rw [hm]
        exact Or.inl h1
      | none =>
        rw [hm] at h1
        exact absurd h1 (by simp [alget])
    · exact Or.inr h2

theorem loadFile_lookup {st : LnStore} {lang content k v : Str} {l : Str}
    (hmem : l ∈ linesOf content) (he : lineEntry l = some (k, v))
    (hall : ∀ l' ∈ linesOf content, ∀ v', lineEntry l' = some (k, v') → v' = v) :
    lookupStore (loadFile st lang content) lang k = some v := by
  unfold loadFile
  have hne : linesOf content ≠ [] := by
    intro hnil; rw [hnil] at hmem; exact absurd hmem (by simp)
  rw [if_neg hne]
  unfold lookupStore
  rw [alget_alset, if_pos rfl]
  exact processLines_last hall ⟨l, hmem, he⟩

/-! ## The non-empty-values invariant of reachable stores -/

theorem lookup_good {st : LnStore} {l k v : Str} (hg : GoodStore st)
    (h : lookupStore st l k = some v) : v ≠ [] := by
  obtain ⟨m, hm, hk⟩ := lookup_some_alget h
  exact hg l m hm k v hk

theorem good_nil : GoodStore [] := by
  intro lang m hm
  exact absurd hm (by simp [alget])

theorem good_ensure {st : LnStore} (hg : GoodStore st) (l : Str) :
    GoodStore (ensureLang st l) := by
  unfold ensureLang
  cases hm : alget st l with
  | some m => exact hg
  | none =>
    intro lang m' hm'
    rw [alget_alset] at hm'
    by_cases hl : lang = l
    · rw [if_pos hl] at hm'
      have : ([] : LocMap) = m' := Option.some_inj.mp hm'
      intro k v hk
      rw [← this] at hk
      exact absurd hk (by simp [alget])
    · rw [if_neg hl] at hm'
      exact hg lang m' hm'

theorem good_setEntry {st : LnStore} {v : Str} (hg : GoodStore st)
    (l k : Str) (hv : v ≠ []) : GoodStore (setEntry st l k v) := by
  unfold setEntry
  have inner : ∀ m : LocMap, GoodMap m → GoodMap (alset m k v) := by
    intro m hm k' v' hk'
    rw [alget_alset] at hk'
    by_cases h : k' = k
    · rw [if_pos h] at hk'
      rw [← Option.some_inj.mp hk']
      exact hv
    · rw [if_neg h] at hk'
      exact hm k' v' hk'
  cases hm : alget st l with
  | some m =>
    intro lang m' hm'
    rw [alget_alset] at hm'
    by_cases hl : lang = l
    · rw [if_pos hl] at hm'
      rw [← Option.some_inj.mp hm']
      exact inner m (hg l m hm)
    · rw [if_neg hl] at hm'
      exact hg lang m' hm'
  | none =>
    intro lang m' hm'
    rw [alget_alset] at hm'
    by_cases hl : lang = l
    · rw [if_pos hl] at hm'
      rw [← Option.some_inj.mp hm']
      exact inner [] (by intro k' v' hk'; exact absurd hk' (by simp [alget]))
    · rw [if_neg hl] at hm'
      exact hg lang m' hm'

theorem good_processLines {ls : List Str} {m : LocMap}
    (hm : GoodMap m) (hfix : ∀ l ∈ ls, trim l = l) :
    GoodMap (processLines m ls) := by
  induction ls generalizing m with
  | nil => exact hm
  | cons l rest ih =>
    cases he : lineEntry l with
    | some kv =>
      obtain ⟨k', v'⟩ := kv
      simp only [processLines, he]
      apply ih
      · intro k v hk
        rw [alget_alset] at hk
        by_cases h : k = k'
        · rw [if_pos h] at hk
          rw [← Option.some_inj.mp hk]
          exact lineEntry_value_ne_nil (hfix l (List.mem_cons_self l rest)) he
        · rw [if_neg h] at hk
          exact hm k v hk
      · exact fun l' hl' => hfix l' (List.mem_cons_of_mem l hl')
    | none =>
      simp only [processLines, he]
      exact ih hm (fun l' hl' => hfix l' (List.mem_cons_of_mem l hl'))

theorem good_loadFile {st : LnStore} (hg : GoodStore st) (lang content : Str) :
    GoodStore (loadFile st lang content) := by
  unfold loadFile
  by_cases hl : linesOf content = []
  · rw [if_pos hl]; exact hg
  · rw [if_neg hl]
    intro lang' m' hm'
    rw [alget_alset] at hm'
    by_cases hll : lang' = lang
    · rw [if_pos hll] at hm'
      rw [← Option.some_inj.mp hm']
      apply good_processLines
      · cases hb : alget st lang with
        | some m => exact hg lang m hb
        | none => intro k v hk; exact absurd hk (by simp [alget])
      · exact fun l hl' => mem_linesOf_trim_fix hl'
    · rw [if_neg hll] at hm'
      exact hg lang' m' hm'

/-! ## Branch lemmas for `tOnline` and `tLocal` -/

theorem effLang_of_ne {language : Str} (h : language ≠ []) (d : Str) :
    effLang language d = language := if_neg h

theorem tOnline_guard {st : LnStore} {text key language : Str} {vars : VarList}
    {oracle : Str → Str → Option Str} {d : Str} (h : text = [] ∨ key = []) :
    tOnline st text key language vars oracle d =
      ⟨if text = [] then key else text, st, []⟩ := by
  simp only [tOnline, if_pos h]

theorem tOnline_eq_hit {st : LnStore} {text key language lang v : Str}
    {vars : VarList} {oracle : Str → Str → Option Str} {d : Str}
    (heff : effLang language d = lang) (ht : text ≠ []) (hk : key ≠ [])
    (hlk : lookupStore st lang key = some v) (hv : v ≠ []) :
    tOnline st text key language vars oracle d = ⟨substVars vars v, st, []⟩ := by
  have hguard : ¬ (text = [] ∨ key = []) := by
    rintro (h | h)
    · exact ht h
    · exact hk h
  obtain ⟨m, hm, -⟩ := lookup_some_alget hlk
  simp only [tOnline, heff, if_neg hguard, ensure_of_some hm, hlk,
    Option.isSome_some, if_true, if_neg hv]

theorem tOnline_eq_miss {st : LnStore} {text key language lang : Str}
    {vars : VarList} {oracle : Str → Str → Option Str} {d : Str}
    (heff : effLang language d = lang) (ht : text ≠ []) (hk : key ≠ [])
    (hlk : lookupStore st lang key = none) :
    tOnline st text key language vars oracle d =
      ⟨substVars vars text, setEntry (ensureLang st lang) lang key text, []⟩ := by
  have hguard : ¬ (text = [] ∨ key = []) := by
    rintro (h | h)
    · exact ht h
    · exact hk h
  simp only [tOnline, heff, if_neg hguard, lookup_ensure, hlk,
    Option.isSome_none, Bool.false_eq_true, if_false, lookup_setEntry_same,
    if_neg ht]

theorem tOnline_eq_empty {st : LnStore} {text key language lang : Str}
    {vars : VarList} {oracle : Str → Str → Option Str} {d : Str}
    (heff : effLang language d = lang) (ht : text ≠ []) (hk : key ≠ [])
    (hlk : lookupStore st lang key = some []) :
    tOnline st text key language vars oracle d =
      match oracle (protect vars text).1 lang with
      | some res =>
        ⟨substVars vars (restoreAll (protect vars text).2 res),
         setEntry st lang key (restoreAll (protect vars text).2 res),
         [((protect vars text).1, lang)]⟩
      | none =>
        ⟨substVars vars (restoreAll (protect vars text).2 text), st,
         [((protect vars text).1, lang)]⟩ := by
  have hguard : ¬ (text = [] ∨ key = []) := by
    rintro (h | h)
    · exact ht h
    · exact hk h
  obtain ⟨m, hm, -⟩ := lookup_some_alget hlk
  simp only [tOnline, heff, if_neg hguard, ensure_of_some hm, hlk,
    Option.isSome_some, if_true]

theorem tLocal_eq_hit {st : LnStore} {key language lang v : Str}
    {vars : VarList} {d : Str}
    (heff : effLang language d = lang) (hlk : lookupStore st lang key = some v)
    (hv : v ≠ []) :
    tLocal st key language vars d = (substVars vars v, st) := by
  obtain ⟨m, hm, -⟩ := lookup_some_alget hlk
  simp only [tLocal, heff, ensure_of_some hm, hlk, if_neg hv]

theorem tLocal_eq_empty {st : LnStore} {key language lang : Str}
    {vars : VarList} {d : Str}
    (heff : effLang language d = lang) (hlk : lookupStore st lang key = some []) :
    tLocal st key language vars d = (substVars vars key, st) := by
  obtain ⟨m, hm, -⟩ := lookup_some_alget hlk
  simp only [tLocal, heff, ensure_of_some hm, hlk, if_pos rfl, if_true]

theorem tLocal_eq_miss {st : LnStore} {key language lang : Str}
    {vars : VarList} {d : Str}
    (heff : effLang language d = lang) (hlk : lookupStore st lang key = none) :
    tLocal st key language vars d = (substVars vars key, ensureLang st lang) := by
  simp only [tLocal, heff, lookup_ensure, hlk]

theorem good_tLocal {st : LnStore} (hg : GoodStore st)
    (key language : Str) (vars : VarList) (d : Str) :
    GoodStore (tLocal st key language vars d).2 := by
  cases hlk : lookupStore st (effLang language d) key with
  | none =>
    rw [tLocal_eq_miss rfl hlk]
    exact good_ensure hg (effLang language d)
  | some v =>
    by_cases hv : v = []
    · subst hv
      rw [tLocal_eq_empty rfl hlk]
      exact hg
    · rw [tLocal_eq_hit rfl hlk hv]
      exact hg

theorem good_tOnline {st : LnStore} (hg : GoodStore st)
    (text key language : Str) (vars : VarList)
    (oracle : Str → Str → Option Str) (d : Str) :
    GoodStore (tOnline st text key language vars oracle d).store := by
  by_cases hguard : text = [] ∨ key = []
  · rw [tOnline_guard hguard]
    exact hg
  · push_neg at hguard
    obtain ⟨ht, hk⟩ := hguard
    cases hlk : lookupStore st (effLang language d) key with
    | none =>
      rw [tOnline_eq_miss rfl ht hk hlk]
      exact good_setEntry (good_ensure hg (effLang language d))
        (effLang language d) key ht
    | some v =>
      by_cases hv : v = []
      · subst hv
        exact absurd rfl (lookup_good hg hlk)
      · rw [tOnline_eq_hit rfl ht hk hlk hv]
        exact hg

theorem reachable_good {st : LnStore} (h : Reachable st) : GoodStore st := by
  induction h with
  | init => exact good_nil
  | load st lang content _ ih => exact good_loadFile ih lang content
  | tloc st key language vars d _ ih => exact good_tLocal ih key language vars d
  | tonl st text key language vars oracle d _ ih =>
    exact good_tOnline ih text key language vars oracle d
  | reset st _ _ => exact good_nil

/-! ## Occurrence lemmas for `replaceFirst` -/

theorem isPre_iff_take {pat u : Str} :
    isPre pat u = true ↔ u.take pat.length = pat := by
  induction pat generalizing u with
  | nil => simp [isPre]
  | cons a as ih =>
    cases u with
    | nil => simp [isPre]
    | cons b bs =>
      by_cases hab : a = b
      · subst hab
        simp only [isPre, if_pos rfl, List.length_cons, List.take_succ_cons,
          List.cons.injEq, true_and]
        exact ih
      · simp only [isPre, if_neg hab, List.length_cons, List.take_succ_cons,
          List.cons.injEq]
        constructor
        · intro h; exact absurd h (by simp)
        · rintro ⟨hb, -⟩; exact absurd hb.symm hab

theorem occursIn_of_isPre {pat s : Str} (h : isPre pat s = true) :
    occursIn pat s = true := by
  cases s with
  | nil => exact h
  | cons c rest => simp [occursIn, h]

theorem occursIn_false_parts {pat : Str} {c : Char} {rest : Str}
    (h : occursIn pat (c :: rest) = false) :
    isPre pat (c :: rest) = false ∧ occursIn pat rest = false := by
  unfold occursIn at h
  exact Bool.or_eq_false_iff.mp h

theorem replaceFirst_no_occur {s pat repl : Str} (h : occursIn pat s = false) :
    replaceFirst s pat repl = s := by
  induction s with
  | nil =>
    unfold occursIn at h
    unfold replaceFirst
    rw [h]
    simp
  | cons c rest ih =>
    obtain ⟨h1, h2⟩ := occursIn_false_parts h
    unfold replaceFirst
    rw [h1]
    simp only [Bool.false_eq_true, if_false]
    rw [ih h2]

theorem replaceFirst_at {pre post pat repl : Str}
    (h : occursIn pat (pre ++ pat.dropLast) = false) :
    replaceFirst (pre ++ pat ++ post) pat repl = pre ++ repl ++ post := by
  induction pre with
  | nil =>
    cases pat with
    | nil =>
      exact absurd h (by simp [occursIn, isPre])
    | cons a as =>
      have hpre : isPre (a :: as) ((a :: as) ++ post) = true := by
        rw [isPre_iff_take]
        exact List.take_append_of_le_length (Nat.le_refl _) ▸ by simp
      show replaceFirst ((a :: as) ++ post) (a :: as) repl = repl ++ post
      unfold replaceFirst
      rw [List.cons_append]
      simp only [← List.cons_append, hpre, if_pos rfl, if_true]
      rw [List.drop_left]
  | cons d pre' ih =>
    have hpat_ne : pat ≠ [] := by
      intro hp
      subst hp
      exact absurd h (by simp [occursIn, isPre])
    have hstep : isPre pat ((d :: pre') ++ pat ++ post) = false := by
      by_contra hcon
      have hpre : isPre pat ((d :: pre') ++ pat ++ post) = true := by
        cases hx : isPre pat ((d :: pre') ++ pat ++ post) with
        | false => exact absurd hx hcon
        | true => rfl
      rw [isPre_iff_take] at hpre
      have hlen : pat.length ≤ ((d :: pre') ++ pat.dropLast).length := by
        simp only [List.length_append, List.length_cons, List.length_dropLast]
        have hp1 : 1 ≤ pat.length := by
          cases pat with
          | nil => exact absurd rfl hpat_ne
          | cons _ _ => simp
        omega
      have hdecomp : ((d :: pre') ++ pat.dropLast) ++ ([pat.getLast hpat_ne] ++ post) =
          (d :: pre') ++ pat ++ post := by
        rw [List.append_assoc, ← List.append_assoc pat.dropLast,
          List.dropLast_append_getLast hpat_ne, ← List.append_assoc]
      rw [← hdecomp, List.take_append_of_le_length hlen] at hpre
      have hocc : isPre pat ((d :: pre') ++ pat.dropLast) = true := by
        rw [isPre_iff_take]
        exact hpre
      rw [occursIn_of_isPre hocc] at h
      exact absurd h (by simp)
    have hrest : occursIn pat (pre' ++ pat.dropLast) = false :=
      (occursIn_false_parts (by rw [← List.cons_append]; exact h)).2
    show replaceFirst (d :: (pre' ++ pat ++ post)) pat repl =
      d :: (pre' ++ repl ++ post)
    unfold replaceFirst
    rw [show (d :: (pre' ++ pat ++ post)) = ((d :: pre') ++ pat ++ post) from rfl,
      hstep]
    simp only [Bool.false_eq_true, if_false]
    rw [ih hrest]

theorem restoreAll_no_occur {phs : List (Str × Str)} {t : Str}
    (h : ∀ p ∈ phs, occursIn p.1 t = false) : restoreAll phs t = t := by
  induction phs with
  | nil => rfl
  | cons p rest ih =>
    unfold restoreAll
    simp only [List.foldl_cons]
    rw [replaceFirst_no_occur (h p (List.mem_cons_self p rest))]
    exact ih (fun p' hp' => h p' (List.mem_cons_of_mem p hp'))

/-! ## Claim theorems -/

/-- C1: the claim states that in online mode, when the store has no entry
for (language, key), `t` protects the `%var%` placeholders, invokes the
translation client, restores the placeholders in the result, stores the
result under (language, key) and returns it.  Evaluating the embedding at
such a call shows the opposite: because lines 134-141 of
`src/source/index.ts` pre-store the original text before the cache lookup,
the lookup always hits, the client is never invoked (`calls = []`), the
value stored under (language, key) is the untranslated original text, and
the original text (with variable substitution only) is returned. -/
theorem c1_online_miss_never_invokes_client :
    (tOnline [] (toStr "hola %user%") (toStr "saludo") (toStr "en")
      [(toStr "user", toStr "Ana")]
      (fun _ _ => some (toStr "HELLO Ana")) (toStr "es")).calls = [] ∧
    (tOnline [] (toStr "hola %user%") (toStr "saludo") (toStr "en")
      [(toStr "user", toStr "Ana")]
      (fun _ _ => some (toStr "HELLO Ana")) (toStr "es")).out = toStr "hola Ana" ∧
    lookupStore (tOnline [] (toStr "hola %user%") (toStr "saludo") (toStr "en")
      [(toStr "user", toStr "Ana")]
      (fun _ _ => some (toStr "HELLO Ana")) (toStr "es")).store
      (toStr "en") (toStr "saludo") = some (toStr "hola %user%") := by
  decide

/-- C2: a (language, key) pair that already has an entry in a store
reachable through the public operations is served from the store with
variable substitution applied, without invoking the translation client and
without changing the store (first part, in both modes); and two online
calls with the same (text, key, language) starting from a store with no
entry for the pair invoke the client at most once (here: never) and the
second call returns the cached value with variable substitution applied
(second part). -/
theorem c2_cached_pair_served_without_client :
    (∀ (st : LnStore) (lang key v text : Str) (vars : VarList)
        (oracle : Str → Str → Option Str) (d : Str),
        Reachable st → lang ≠ [] → text ≠ [] → key ≠ [] →
        lookupStore st lang key = some v →
        tOnline st text key lang vars oracle d = ⟨substVars vars v, st, []⟩ ∧
        tLocal st key lang vars d = (substVars vars v, st)) ∧
    (∀ (st : LnStore) (lang key text : Str) (vars : VarList)
        (oracle : Str → Str → Option Str) (d : Str),
        lang ≠ [] → text ≠ [] → key ≠ [] →
        lookupStore st lang key = none →
        (tOnline st text key lang vars oracle d).calls = [] ∧
        lookupStore (tOnline st text key lang vars oracle d).store lang key =
          some text ∧
        (tOnline (tOnline st text key lang vars oracle d).store
            text key lang vars oracle d).calls = [] ∧
        (tOnline (tOnline st text key lang vars oracle d).store
            text key lang vars oracle d).out = substVars vars text) := by
  constructor
  · intro st lang key v text vars oracle d hr hlang ht hk hlk
    have hv : v ≠ [] := lookup_good (reachable_good hr) hlk
    exact ⟨tOnline_eq_hit (effLang_of_ne hlang d) ht hk hlk hv,
      tLocal_eq_hit (effLang_of_ne hlang d) hlk hv⟩
  · intro st lang key text vars oracle d hlang ht hk hlk
    have h1 := @tOnline_eq_miss st text key lang lang vars oracle d
      (effLang_of_ne hlang d) ht hk hlk
    have hlk1 : lookupStore (tOnline st text key lang vars oracle d).store
        lang key = some text := by
      rw [h1]
      exact lookup_setEntry_same _ _ _ _
    have h2 := @tOnline_eq_hit (tOnline st text key lang vars oracle d).store
      text key lang lang text vars oracle d
      (effLang_of_ne hlang d) ht hk hlk1 ht
    refine ⟨by rw [h1], hlk1, by rw [h2], by rw [h2]⟩

/-- C3: the claim states that `reset()` clears the whole store (true) and
that an online call for a previously cached pair afterwards invokes the
translation client afresh.  Evaluating the embedding shows the second part
false: after caching (en, k) and resetting, the next online call again
makes no client invocation (`calls = []`), because the pre-store of lines
134-141 re-fills the entry with the original text before the lookup. -/
theorem c3_reset_clears_but_no_fresh_client_call :
    lookupStore (tOnline [] (toStr "hola") (toStr "k") (toStr "en") []
      (fun _ _ => some (toStr "T1")) (toStr "en")).store
      (toStr "en") (toStr "k") = some (toStr "hola") ∧
    resetStore (tOnline [] (toStr "hola") (toStr "k") (toStr "en") []
      (fun _ _ => some (toStr "T1")) (toStr "en")).store = [] ∧
    (tOnline (resetStore (tOnline [] (toStr "hola") (toStr "k") (toStr "en") []
        (fun _ _ => some (toStr "T1")) (toStr "en")).store)
      (toStr "hola") (toStr "k") (toStr "en") []
      (fun _ _ => some (toStr "T2")) (toStr "en")).calls = [] := by
  decide

/-- C4 counterexample: the claim states that `t` replaces every literal
occurrence of `%name%` for each name in `vars`.  With the stored value
`"A %u% B %u%"` and `vars = {u: "X"}`, the code replaces only the first
occurrence (`String.prototype.replace` with a string pattern), returning
`"A X B %u%"` and not `"A X B X"`. -/
theorem c4_second_occurrence_not_replaced :
    (tLocal [(toStr "es", [(toStr "k", toStr "A %u% B %u%")])] (toStr "k")
      (toStr "es") [(toStr "u", toStr "X")] (toStr "es")).1 = toStr "A X B %u%" ∧
    (tLocal [(toStr "es", [(toStr "k", toStr "A %u% B %u%")])] (toStr "k")
      (toStr "es") [(toStr "u", toStr "X")] (toStr "es")).1 ≠ toStr "A X B X" := by
  decide

/-- C4 (amended): for each name in `vars`, `t` replaces the first literal
occurrence of `%name%` in the resolved text with the given value
(substitutions are applied sequentially in `vars` order); a placeholder
whose name is not in `vars`, or any placeholder that does not occur,
remains literally; the spec's example with `{user: "A", place: "B"}` on
`"Hola %user%, bienvenido a %place%."` yields
`"Hola A, bienvenido a B."`. -/
theorem c4_first_occurrence_substitution :
    (∀ pre post name v : Str,
        occursIn (placeholderOf name) (pre ++ (placeholderOf name).dropLast) = false →
        substVars [(name, v)] (pre ++ placeholderOf name ++ post) =
          pre ++ v ++ post) ∧
    (∀ text name v : Str, occursIn (placeholderOf name) text = false →
        substVars [(name, v)] text = text) ∧
    (tLocal [(toStr "es", [(toStr "welcome.user",
        toStr "Hola %user%, bienvenido a %place%.")])] (toStr "welcome.user")
      (toStr "es") [(toStr "user", toStr "A"), (toStr "place", toStr "B")]
      (toStr "es")).1 = toStr "Hola A, bienvenido a B." := by
  refine ⟨?_, ?_, by decide⟩
  · intro pre post name v h
    show replaceFirst (pre ++ placeholderOf name ++ post) (placeholderOf name) v =
      pre ++ v ++ post
    exact replaceFirst_at h
  · intro text name v h
    show replaceFirst text (placeholderOf name) v = text
    exact replaceFirst_no_occur h

/-- C5 counterexample: the claim quantifies over every `key=value` line of
a loaded file.  Loading a file with the two lines `a=1` and `a=2` gives a
store in which `t("a", "es")` returns `"2"`: the earlier matching line
`a=1` does not have its value returned, so the claim as stated fails. -/
theorem c5_earlier_duplicate_line_not_returned :
    toStr "a=1" ∈ linesOf (toStr "a=1\na=2") ∧
    lineEntry (toStr "a=1") = some (toStr "a", toStr "1") ∧
    (tLocal (loadFile [] (toStr "es") (toStr "a=1\na=2")) (toStr "a")
      (toStr "es") [] (toStr "es")).1 = toStr "2" ∧
    (tLocal (loadFile [] (toStr "es") (toStr "a=1\na=2")) (toStr "a")
      (toStr "es") [] (toStr "es")).1 ≠ toStr "1" := by
  decide

/-- C5 (amended): for every non-comment line of a loaded file whose trimmed
form matches `key=value` (first `=` splitting key from value, both parts
non-empty), provided every line of the file contributing the same trimmed
key contributes the same trimmed value, after load `t(key, language)` in
local mode returns the trimmed value. -/
theorem c5_load_then_local_lookup (st : LnStore)
    (lang content raw b a d : Str)
    (hraw : raw ∈ splitNl content)
    (hsplit : splitEq (trim raw) = some (b, a))
    (hb : b ≠ []) (ha : a ≠ [])
    (hhash : (trim raw).head? ≠ some '#')
    (hnodup : ∀ l ∈ linesOf content, ∀ v',
      lineEntry l = some (trim b, v') → v' = trim a)
    (hlang : lang ≠ []) :
    (tLocal (loadFile st lang content) (trim b) lang [] d).1 = trim a := by
  have htr : trim raw ≠ [] := by
    intro hnil
    rw [hnil] at hsplit
    exact absurd hsplit (by simp [splitEq])
  have hmem : trim raw ∈ linesOf content := mem_linesOf_of hraw htr hhash
  have hfix : trim (trim raw) = trim raw := trim_trim raw
  have he : lineEntry (trim raw) = some (trim b, trim a) := by
    unfold lineEntry
    rw [hsplit]
    exact if_pos ⟨hb, ha⟩
  have hlk : lookupStore (loadFile st lang content) lang (trim b) = some (trim a) :=
    loadFile_lookup hmem he hnodup
  have hv : trim a ≠ [] := value_trim_ne_nil hfix hsplit ha
  rw [tLocal_eq_hit (effLang_of_ne hlang d) hlk hv]
  rfl

/-- C6: every entry present after loading a file is either an old entry or
contributed by some surviving line through `lineEntry` (first part); a
trimmed line with no `=`, or whose key part trims to empty, or whose value
part trims to empty, contributes no entry (second part); and the surviving
lines are exactly the non-blank lines not starting with `#` (third part). -/
theorem c6_malformed_lines_add_no_entry :
    (∀ (st : LnStore) (lang content k v : Str),
        lookupStore (loadFile st lang content) lang k = some v →
        lookupStore st lang k = some v ∨
          ∃ l ∈ linesOf content, lineEntry l = some (k, v)) ∧
    (∀ l : Str, trim l = l →
        (splitEq l = none → lineEntry l = none) ∧
        (∀ b a : Str, splitEq l = some (b, a) → trim b = [] ∨ trim a = [] →
          lineEntry l = none)) ∧
    (∀ content l : Str, l ∈ linesOf content → l ≠ [] ∧ l.head? ≠ some '#') := by
  refine ⟨?_, ?_, ?_⟩
  · intro st lang content k v h
    exact loadFile_provenance h
  · intro l hfix
    constructor
    · intro hs
      unfold lineEntry
      rw [hs]
    · intro b a hs htrim
      rcases htrim with htb | hta
      · by_cases hb : b = []
        · unfold lineEntry
          rw [hs]
          exact if_neg (by simp [hb])
        · exact absurd htb (key_trim_ne_nil hfix hs hb)
      · by_cases ha : a = []
        · unfold lineEntry
          rw [hs]
          exact if_neg (by simp [ha])
        · exact absurd hta (value_trim_ne_nil hfix hs ha)
  · intro content l h
    exact mem_linesOf_props h

/-- C7: in online mode, when the translation client is invoked and fails
(the oracle returns `none`, modelling a thrown error), `t` returns the
original source text with the placeholders restored and variable
substitution applied, leaves the store unchanged, and the failure is not
propagated (the embedding of `t` is a total function whose `catch` branch
produces this value).  The invocation hypothesis is stated through the only
store shape that reaches the client (an empty-string entry for the pair);
the marker-freedom hypothesis makes the restoration a no-op, as in any
realistic text. -/
theorem c7_client_failure_falls_back_to_original (st : LnStore)
    (text key lang d : Str) (vars : VarList)
    (oracle : Str → Str → Option Str)
    (hlang : lang ≠ []) (ht : text ≠ []) (hk : key ≠ [])
    (hlk : lookupStore st lang key = some [])
    (hfail : oracle (protect vars text).1 lang = none)
    (hclean : ∀ p ∈ (protect vars text).2, occursIn p.1 text = false) :
    (tOnline st text key lang vars oracle d).out = substVars vars text ∧
    (tOnline st text key lang vars oracle d).calls =
      [((protect vars text).1, lang)] ∧
    (tOnline st text key lang vars oracle d).store = st := by
  rw [tOnline_eq_empty (effLang_of_ne hlang d) ht hk hlk, hfail]
  simp only [restoreAll_no_occur hclean]
  exact ⟨trivial, trivial, trivial⟩

/-- C8: in online mode, when `textToTranslate` or `key` is missing (falsy),
`t` returns the original text if present and otherwise the key, performs no
client invocation and leaves the store untouched, instead of throwing. -/
theorem c8_missing_args_best_effort (st : LnStore)
    (text key lang d : Str) (vars : VarList)
    (oracle : Str → Str → Option Str)
    (h : text = [] ∨ key = []) :
    (tOnline st text key lang vars oracle d).out =
      (if text = [] then key else text) ∧
    (tOnline st text key lang vars oracle d).store = st ∧
    (tOnline st text key lang vars oracle d).calls = [] := by
  rw [tOnline_guard h]
  exact ⟨rfl, rfl, rfl⟩

/-- C9: in local mode, a key with no entry in the requested language's map
resolves to the key itself, unchanged. -/
theorem c9_local_unknown_key_returns_key (st : LnStore) (key lang d : Str)
    (hlang : lang ≠ []) (hlk : lookupStore st lang key = none) :
    (tLocal st key lang [] d).1 = key := by
  rw [tLocal_eq_miss (effLang_of_ne hlang d) hlk]
  rfl

/-- C10: a store entry whose value is the empty string behaves like a
missing entry: a local-mode `t(key, language)` returns the key rather than
the empty string, and an online-mode `t` re-enters the translation path —
it invokes the translation client on the protected text — instead of
serving the entry, because the cache-hit test `if (!text ...)` uses the
truthiness of the looked-up value. -/
theorem c10_empty_entry_behaves_like_missing (st : LnStore)
    (text key lang d : Str) (vars : VarList)
    (oracle : Str → Str → Option Str)
    (hlang : lang ≠ []) (ht : text ≠ []) (hk : key ≠ [])
    (hlk : lookupStore st lang key = some []) :
    (tLocal st key lang [] d).1 = key ∧
    (tOnline st text key lang vars oracle d).calls =
      [((protect vars text).1, lang)] := by
  constructor
  · rw [tLocal_eq_empty (effLang_of_ne hlang d) hlk]
    rfl
  · rw [tOnline_eq_empty (effLang_of_ne hlang d) ht hk hlk]
    cases oracle (protect vars text).1 lang <;> rfl

/-! ## Witnesses -/

/-- Witness for C2: a store loaded with `k=hola` is reachable and serves
`(es, k)` without a client call; from an empty store, two identical online
calls make no client call and the second returns the cached value. -/
theorem c2_witness :
    tOnline (loadFile [] (toStr "es") (toStr "k=hola")) (toStr "hi") (toStr "k")
        (toStr "es") [] (fun _ _ => none) (toStr "es") =
      ⟨substVars [] (toStr "hola"),
       loadFile [] (toStr "es") (toStr "k=hola"), []⟩ ∧
    (tOnline [] (toStr "hi") (toStr "k2") (toStr "es") [] (fun _ _ => none)
        (toStr "es")).calls = [] :=
  ⟨(c2_cached_pair_served_without_client.1
      (loadFile [] (toStr "es") (toStr "k=hola")) (toStr "es") (toStr "k")
      (toStr "hola") (toStr "hi") [] (fun _ _ => none) (toStr "es")
      (Reachable.load _ _ _ Reachable.init) (by decide) (by decide) (by decide)
      (by decide)).1,
   (c2_cached_pair_served_without_client.2 [] (toStr "es") (toStr "k2")
      (toStr "hi") [] (fun _ _ => none) (toStr "es")
      (by decide) (by decide) (by decide) (by decide)).1⟩

/-- Witness for the amended C4: the first occurrence of `%u%` is replaced
at its position, and a placeholder absent from the text leaves it
unchanged. -/
theorem c4_witness :
    substVars [(toStr "u", toStr "V")]
        (toStr "ab " ++ placeholderOf (toStr "u") ++ toStr " cd") =
      toStr "ab " ++ toStr "V" ++ toStr " cd" ∧
    substVars [(toStr "zz", toStr "V")] (toStr "hello") = toStr "hello" :=
  ⟨c4_first_occurrence_substitution.1 (toStr "ab ") (toStr " cd") (toStr "u")
      (toStr "V") (by decide),
   c4_first_occurrence_substitution.2.1 (toStr "hello") (toStr "zz") (toStr "V")
      (by decide)⟩

/-- Witness for the amended C5: after loading `greet=hola`, the local
lookup of `greet` returns `hola`. -/
theorem c5_witness :
    (tLocal (loadFile [] (toStr "es") (toStr "greet=hola"))
      (trim (toStr "greet")) (toStr "es") [] (toStr "es")).1 =
      trim (toStr "hola") :=
  c5_load_then_local_lookup [] (toStr "es") (toStr "greet=hola")
    (toStr "greet=hola") (toStr "greet") (toStr "hola") (toStr "es")
    (by decide) (by decide) (by decide) (by decide) (by decide)
    (by
      intro l hl v' he
      have hlines : linesOf (toStr "greet=hola") = [toStr "greet=hola"] := by
        decide
      rw [hlines] at hl
      have hl2 : l = toStr "greet=hola" := by simpa using hl
      rw [hl2] at he
      have h3 : lineEntry (toStr "greet=hola") =
          some (toStr "greet", toStr "hola") := by decide
      rw [h3] at he
      have h4 := Option.some_inj.mp he
      injection h4 with _ hv
      rw [← hv]
      decide)
    (by decide)

/-- Witness for C6: a line without `=` contributes no entry, and a loaded
entry is attributed to its line. -/
theorem c6_witness :
    lineEntry (toStr "no separator line") = none ∧
    (lookupStore [] (toStr "es") (toStr "x") = some (toStr "1") ∨
      ∃ l ∈ linesOf (toStr "x=1"), lineEntry l = some (toStr "x", toStr "1")) :=
  ⟨(c6_malformed_lines_add_no_entry.2.1 (toStr "no separator line")
      (by decide)).1 (by decide),
   c6_malformed_lines_add_no_entry.1 [] (toStr "es") (toStr "x=1") (toStr "x")
      (toStr "1") (by decide)⟩

/-- Witness for C7: with the `(es, k)` entry empty, text `hola` and a
failing client, the call returns the substituted original text, records one
client invocation and leaves the store unchanged. -/
theorem c7_witness :
    (tOnline [(toStr "es", [(toStr "k", [])])] (toStr "hola") (toStr "k")
        (toStr "es") [(toStr "user", toStr "X")] (fun _ _ => none)
        (toStr "es")).out =
      substVars [(toStr "user", toStr "X")] (toStr "hola") ∧
    (tOnline [(toStr "es", [(toStr "k", [])])] (toStr "hola") (toStr "k")
        (toStr "es") [(toStr "user", toStr "X")] (fun _ _ => none)
        (toStr "es")).calls =
      [((protect [(toStr "user", toStr "X")] (toStr "hola")).1, toStr "es")] ∧
    (tOnline [(toStr "es", [(toStr "k", [])])] (toStr "hola") (toStr "k")
        (toStr "es") [(toStr "user", toStr "X")] (fun _ _ => none)
        (toStr "es")).store = [(toStr "es", [(toStr "k", [])])] :=
  c7_client_failure_falls_back_to_original [(toStr "es", [(toStr "k", [])])]
    (toStr "hola") (toStr "k") (toStr "es") (toStr "es")
    [(toStr "user", toStr "X")] (fun _ _ => none)
    (by decide) (by decide) (by decide) (by decide) rfl (by decide)

/-- Witness for C8: an online call with an empty text returns the key,
leaves the store unchanged and makes no client call. -/
theorem c8_witness :
    (tOnline [] [] (toStr "k") (toStr "es") [] (fun _ _ => none)
        (toStr "es")).out = (if ([] : Str) = [] then toStr "k" else []) ∧
    (tOnline [] [] (toStr "k") (toStr "es") [] (fun _ _ => none)
        (toStr "es")).store = [] ∧
    (tOnline [] [] (toStr "k") (toStr "es") [] (fun _ _ => none)
        (toStr "es")).calls = [] :=
  c8_missing_args_best_effort [] [] (toStr "k") (toStr "es") (toStr "es") []
    (fun _ _ => none) (Or.inl rfl)

/-- Witness for C9: the key `missing.key` with an empty store resolves to
itself. -/
theorem c9_witness :
    (tLocal [] (toStr "missing.key") (toStr "es") [] (toStr "es")).1 =
      toStr "missing.key" :=
  c9_local_unknown_key_returns_key [] (toStr "missing.key") (toStr "es")
    (toStr "es") (by decide) (by decide)

/-- Witness for C10: with `(es, k)` mapped to the empty string, the local
call returns the key and the online call invokes the client. -/
theorem c10_witness :
    (tLocal [(toStr "es", [(toStr "k", [])])] (toStr "k") (toStr "es") []
        (toStr "es")).1 = toStr "k" ∧
    (tOnline [(toStr "es", [(toStr "k", [])])] (toStr "hola") (toStr "k")
        (toStr "es") [] (fun _ _ => some (toStr "T")) (toStr "es")).calls =
      [((protect [] (toStr "hola")).1, toStr "es")] :=
  c10_empty_entry_behaves_like_missing [(toStr "es", [(toStr "k", [])])]
    (toStr "hola") (toStr "k") (toStr "es") (toStr "es") []
    (fun _ _ => some (toStr "T"))
    (by decide) (by decide) (by decide) (by decide)
